import Mathlib

/-!
Verification of the `molter` help-command module (`molter/help.py`).

The Python module is a filtering/formatting layer over a bot framework: the
`HelpCommand` class gathers the client's registered commands, filters them by
configuration flags, formats them, and sends either a command list or a
single-command detail message.  This file gives a shallow embedding of that
module and settles the specification claims about it.

Modelling conventions:
* Python `str` is modelled as `List Char` (`Str`), so `len` is `List.length`
  and `str.replace` is the executable `replaceAll` below (left-to-right,
  non-overlapping, as CPython for a non-empty pattern; the module never
  replaces an empty pattern).
* Async check predicates are modelled as pure functions
  `MessageContext → Bool`; the source only inspects their boolean results.
* Python object identity (`cmd == self.cmd`) is modelled by a numeric
  identity field `oid` on commands, with the help command's own identity
  stored as `selfId` in the configuration.
* The client's `user.id` appears in the source only via its textual form
  inside f-strings, so it is modelled directly as its decimal digit string
  `idStr`.
* The side effects of sending are modelled by returning an `SendAction` value
  describing which send path was taken and with which payload.
-/

/-- Text is modelled as a list of characters (Python `str`). -/
abbrev Str := List Char

/-- Model of `dis_snek.MessageContext`: the help command reads only the
invocation prefix (`ctx.prefix`, named `prfx` here) and passes the context to
check predicates. -/
structure MessageContext where
  prfx : Str

/-- Model of a command parameter (an entry of `cmd.params`): a name and the
`optional` flag. -/
structure CmdParam where
  name : Str
  optional : Bool
deriving DecidableEq

/-- Model of a molter `Scale` grouping: the help command reads only its
`scale_checks` list. -/
structure CmdScale where
  scale_checks : List (MessageContext → Bool)

/-- Model of `molter.MolterCommand` restricted to the fields the help command
reads.  `oid` models Python object identity for the `cmd == self.cmd` test. -/
structure MolterCommand where
  oid : Nat
  qualified_name : Str
  enabled : Bool
  hidden : Bool
  aliases : List Str
  params : List CmdParam
  brief : Str
  help : Str
  checks : List (MessageContext → Bool)
  scale : Option CmdScale

instance : Inhabited MolterCommand :=
  ⟨{ oid := 0, qualified_name := [], enabled := false, hidden := false,
     aliases := [], params := [], brief := [], help := [],
     checks := [], scale := none }⟩

/-- Model of the `dis_snek.Snake` client as read by the help command:
`user.username` and the decimal rendering of `user.id`. -/
structure Snake where
  username : Str
  idStr : Str

/-- Configuration attributes of the `HelpCommand` class.  `show_prfx` models
the source attribute `show_prefix`; `selfId` is the object identity of
`self.cmd` used by the `cmd == self.cmd` comparison in `_gather`. -/
structure HelpCommand where
  show_hidden : Bool
  show_disabled : Bool
  run_checks : Bool
  show_self : Bool
  show_params : Bool
  show_aliases : Bool
  show_prfx : Bool
  embed_title : Str
  not_found_message : Str
  selfId : Nat

/-- Python dict assignment `out[k] = v`: replace the value in place if the key
is present (keeping its position), otherwise append the new binding. -/
def insertKV (k : Str) (v : MolterCommand) :
    List (Str × MolterCommand) → List (Str × MolterCommand)
  | [] => [(k, v)]
  | (k', v') :: rest =>
      if k' = k then (k, v) :: rest else (k', v') :: insertKV k v rest

/-- Python `dict.get k`: the value bound to `k`, if any. -/
def lookupKV (m : List (Str × MolterCommand)) (k : Str) : Option MolterCommand :=
  match m with
  | [] => none
  | (k', v) :: rest => if k' = k then some v else lookupKV rest k

/-- The inner permission-check loop of `_gather`, translated literally:
`for _c in checks: if not _c(ctx): continue`.  The `continue` statement jumps
to the next iteration of this same loop, which is also what falling through
does, so both branches recurse on the remaining checks and the loop produces
no value. -/
def run_check_loop (checks : List (MessageContext → Bool)) (c : MessageContext) : Unit :=
  match checks with
  | [] => ()
  | f :: rest => if ¬ f c then run_check_loop rest c else run_check_loop rest c

/-- The body of the `if ctx and cmd.checks and not self.run_checks:` block of
`_gather`: run the command's checks, then, when the command has a scale with a
non-empty `scale_checks` list, run those as well. -/
def check_block (cmd : MolterCommand) (c : MessageContext) : Unit :=
  let _ := run_check_loop cmd.checks c
  match cmd.scale with
  | some sc => if !sc.scale_checks.isEmpty then run_check_loop sc.scale_checks c else ()
  | none => ()

/-- One iteration of the `_gather` loop over `self._client.commands.values()`.
The three `continue` guards mirror the source's `if`/`if`/`elif` chain; the
check block is executed (when a context is supplied, the command has checks
and `run_checks` is false) but its result is discarded, exactly as in the
source, where its `continue` statements target the inner loops. -/
def gather_step (cfg : HelpCommand) (ctx : Option MessageContext)
    (out : List (Str × MolterCommand)) (cmd : MolterCommand) :
    List (Str × MolterCommand) :=
  if !cmd.enabled && !cfg.show_disabled then out
  else if (cmd.oid == cfg.selfId) && !cfg.show_self then out
  else if cmd.hidden && !cfg.show_hidden then out
  else
    let _ :=
      match ctx with
      | some c => if !cmd.checks.isEmpty && !cfg.run_checks then check_block cmd c else ()
      | none => ()
    insertKV cmd.qualified_name cmd out

/-- Translation of `HelpCommand._gather`: fold the loop body over the
registry values, starting from the empty dict. -/
def gather (cfg : HelpCommand) (registry : List MolterCommand)
    (ctx : Option MessageContext) : List (Str × MolterCommand) :=
  registry.foldl (gather_step cfg ctx) []

/-- Python `str.lower`, character by character. -/
def lowerStr (s : Str) : Str := s.map Char.toLower

/-- Python `"\n".join`. -/
def joinNL (l : List Str) : Str := List.intercalate ['\n'] l

/-- Fuel-indexed worker for `replaceAll`.  With fuel at least the length of
the text it scans left to right: on a match of the (non-empty) pattern `s` it
emits `t` and continues after the matched segment, otherwise it keeps one
character and continues, exactly like CPython's `str.replace`. -/
def repF (s t : Str) : Nat → Str → Str
  | _, [] => []
  | 0, x => x
  | fuel + 1, c :: rest =>
      if !s.isEmpty && s.isPrefixOf (c :: rest) then
        t ++ repF s t fuel (List.drop s.length (c :: rest))
      else
        c :: repF s t fuel rest

/-- Python `x.replace(s, t)` for a non-empty pattern `s` (the module only ever
replaces non-empty literals; for `s = []` this function is the identity). -/
def replaceAll (s t x : Str) : Str := repF s t x.length x

/-- The `{username}` substitution token of `embed_title`. -/
def username_token : Str := "\x7busername\x7d".toList

/-- The `{cmd_name}` substitution token of `not_found_message`. -/
def cmd_name_token : Str := "\x7bcmd_name\x7d".toList

/-- Python `self.embed_title.format(username=self._client.user.username)`. -/
def format_title (cfg : HelpCommand) (cl : Snake) : Str :=
  replaceAll username_token cl.username cfg.embed_title

/-- Source string `"@everyone"`, the first key of the sanitiser's mapping. -/
def everyone_src : Str := "@everyone".toList

/-- Replacement for `"@everyone"`: an `@` followed by a zero-width space. -/
def everyone_tgt : Str := "@\u200Beveryone".toList

/-- Source string `"@here"`, the second key of the sanitiser's mapping. -/
def here_src : Str := "@here".toList

/-- Replacement for `"@here"`: an `@` followed by a zero-width space. -/
def here_tgt : Str := "@\u200Bhere".toList

/-- Source string `f"<@{self._client.user.id}>"`. -/
def mention_src (cl : Snake) : Str := "<@".toList ++ cl.idStr ++ ">".toList

/-- Source string `f"<@!{self._client.user.id}>"`. -/
def mention_bang_src (cl : Snake) : Str := "<@!".toList ++ cl.idStr ++ ">".toList

/-- Replacement for both direct-mention forms:
`f"@{self._client.user.username}"`. -/
def mention_tgt (cl : Snake) : Str := "@".toList ++ cl.username

/-- Translation of `HelpCommand._sanitise_mentions`: the four substitutions of
the `mappings` dict applied in insertion order. -/
def sanitise_mentions (cl : Snake) (text : Str) : Str :=
  replaceAll (mention_bang_src cl) (mention_tgt cl)
    (replaceAll (mention_src cl) (mention_tgt cl)
      (replaceAll here_src here_tgt
        (replaceAll everyone_src everyone_tgt text)))

/-- Inline-code delimiter. -/
def tick : Str := "`".toList

/-- One parameter segment of the signature string:
`f" \x60{wrapper[0]}{param.name}{wrapper[1]}\x60"` with `[`/`]` for optional
parameters and `<`/`>` for required ones. -/
def param_string (p : CmdParam) : Str :=
  [' '] ++ tick ++ (if p.optional then ['['] else ['<']) ++ p.name ++
    (if p.optional then [']'] else ['>']) ++ tick

/-- Translation of `HelpCommand._generate_command_string`. -/
def generate_command_string (cfg : HelpCommand) (cmd : MolterCommand)
    (ctx : MessageContext) : Str :=
  let base := tick ++ (if cfg.show_prfx then ctx.prfx else []) ++
    cmd.qualified_name ++ tick
  let withAliases :=
    if !cmd.aliases.isEmpty && cfg.show_aliases then
      base ++ ['|'] ++
        List.intercalate ['|'] (cmd.aliases.map (fun a => tick ++ a ++ tick))
    else base
  if !cmd.params.isEmpty && cfg.show_params then
    cmd.params.foldl (fun acc p => acc ++ param_string p) withAliases
  else withAliases

/-- The observable send actions of the module: the paginated multi-page path,
the single rich-embed path, and a plain reply. -/
inductive SendAction where
  | paginator (pageSize : Nat) (title : Str) (pages : List Str)
  | embedReply (title : Str) (description : Str)
  | reply (content : Str)
deriving DecidableEq

/-- Whether an action is a plain reply. -/
def SendAction.isReply : SendAction → Bool
  | .reply _ => true
  | _ => false

/-- Whether an action is the paginated multi-page path. -/
def SendAction.isPaginator : SendAction → Bool
  | .paginator _ _ _ => true
  | _ => false

/-- The `output` list built by the loop of `_help_list`: for each gathered
command, the signature string, a newline and the brief text, sanitised. -/
def help_lines (cfg : HelpCommand) (cl : Snake) (registry : List MolterCommand)
    (ctx : MessageContext) : List Str :=
  (gather cfg registry (some ctx)).map
    (fun kv => sanitise_mentions cl
      (generate_command_string cfg kv.2 ctx ++ ['\n'] ++ kv.2.brief))

/-- Translation of `HelpCommand._help_list`: paginate with page size 500 when
the joined output exceeds 500 characters, otherwise send one embed. -/
def help_list (cfg : HelpCommand) (cl : Snake) (registry : List MolterCommand)
    (ctx : MessageContext) : SendAction :=
  let output := help_lines cfg cl registry ctx
  if 500 < (joinNL output).length then
    SendAction.paginator 500 (format_title cfg cl) output
  else
    SendAction.embedReply (format_title cfg cl) (joinNL output)

/-- Translation of `HelpCommand._help_specific`: look the lower-cased
requested name up in the gathered dict; on a hit reply with the signature
string plus help text (sanitised), otherwise reply with `not_found_message`
with `{cmd_name}` replaced by the requested name as given. -/
def help_specific (cfg : HelpCommand) (cl : Snake)
    (registry : List MolterCommand) (ctx : MessageContext) (cmd_name : Str) :
    SendAction :=
  match lookupKV (gather cfg registry (some ctx)) (lowerStr cmd_name) with
  | some cmd =>
      SendAction.reply (sanitise_mentions cl
        (generate_command_string cfg cmd ctx ++ ['\n'] ++ cmd.help))
  | none =>
      SendAction.reply (replaceAll cmd_name_token cmd_name cfg.not_found_message)

/-- Translation of `HelpCommand._callback`: dispatch on the truthiness of
`cmd_name` (`None` and the empty string both take the list view). -/
def callback (cfg : HelpCommand) (cl : Snake) (registry : List MolterCommand)
    (ctx : MessageContext) (cmd_name : Option Str) : SendAction :=
  match cmd_name with
  | some n => if n ≠ [] then help_specific cfg cl registry ctx n
              else help_list cfg cl registry ctx
  | none => help_list cfg cl registry ctx

/-- The boolean survival condition of the specification: a command is kept by
the filtering exactly when it is enabled or disabled commands are shown, it is
not the help command itself or the help command shows itself, and it is not
hidden or hidden commands are shown. -/
def survives (cfg : HelpCommand) (cmd : MolterCommand) : Bool :=
  (cmd.enabled || cfg.show_disabled) &&
  (!(cmd.oid == cfg.selfId) || cfg.show_self) &&
  (!cmd.hidden || cfg.show_hidden)

/-- Specification-side gather for the refinement claim: filter the registry by
the three boolean conditions alone, ignoring the context and every check
predicate. -/
def gather_spec (cfg : HelpCommand) (registry : List MolterCommand) :
    List (Str × MolterCommand) :=
  registry.foldl
    (fun out cmd =>
      if survives cfg cmd then insertKV cmd.qualified_name cmd out else out) []

/-- The keys of a modelled dict. -/
def keysOf (m : List (Str × MolterCommand)) : List Str := m.map Prod.fst

/-- The gathered dict written directly as a filtered association list; equal
to `gather` whenever qualified names are distinct. -/
def gather_pairs (cfg : HelpCommand) (reg : List MolterCommand) :
    List (Str × MolterCommand) :=
  (reg.filter (fun c => survives cfg c)).map (fun c => (c.qualified_name, c))

/-- Specification-side parameter segment: the parameter name wrapped in
square brackets when optional and angle brackets when required, inline-code
formatted and preceded by a space. -/
def spec_param_string (p : CmdParam) : Str :=
  [' '] ++ tick ++
    (if p.optional then ['['] ++ p.name ++ [']'] else ['<'] ++ p.name ++ ['>']) ++
    tick

/-- Specification-side command-signature string, assembled as the
concatenation of the three parts described by the specification: the base
(qualified name in inline code, prefixed with the invocation prefix only if
`show_prefix`), the alias part (each alias inline-code formatted and appended
separated by `|`, only if there are aliases and `show_aliases`), and the
parameter part (only if there are parameters and `show_params`). -/
def spec_command_string (cfg : HelpCommand) (cmd : MolterCommand)
    (ctx : MessageContext) : Str :=
  (tick ++ (if cfg.show_prfx then ctx.prfx else []) ++ cmd.qualified_name ++ tick)
  ++ (if cmd.aliases ≠ [] ∧ cfg.show_aliases = true then
        (cmd.aliases.map (fun a => ['|'] ++ (tick ++ a ++ tick))).flatten
      else [])
  ++ (if cmd.params ≠ [] ∧ cfg.show_params = true then
        (cmd.params.map spec_param_string).flatten
      else [])

/-- State-passing translation of `_generate_command_string`: the function
reads `cmd` and `ctx` and assigns only its local accumulator, so the threaded
command and context it returns are the objects it received. -/
def generate_command_string_st (cfg : HelpCommand) (cmd : MolterCommand)
    (ctx : MessageContext) : Str × MolterCommand × MessageContext :=
  let base := tick ++ (if cfg.show_prfx then ctx.prfx else []) ++
    cmd.qualified_name ++ tick
  let withAliases :=
    if !cmd.aliases.isEmpty && cfg.show_aliases then
      base ++ ['|'] ++
        List.intercalate ['|'] (cmd.aliases.map (fun a => tick ++ a ++ tick))
    else base
  let final :=
    if !cmd.params.isEmpty && cfg.show_params then
      cmd.params.foldl (fun acc p => acc ++ param_string p) withAliases
    else withAliases
  (final, cmd, ctx)

/-- State-passing translation of `_sanitise_mentions`: the function reads the
client and rebinds only its local `text`, so the threaded client it returns is
the object it received. -/
def sanitise_mentions_st (cl : Snake) (text : Str) : Str × Snake :=
  let t1 := replaceAll everyone_src everyone_tgt text
  let t2 := replaceAll here_src here_tgt t1
  let t3 := replaceAll (mention_src cl) (mention_tgt cl) t2
  let t4 := replaceAll (mention_bang_src cl) (mention_tgt cl) t3
  (t4, cl)

/-- Safety condition for a replacement target `t` with respect to a pattern
`u`: `u` does not occur inside `t`, no non-empty suffix of `t` is a prefix of
`u`, and no non-trivial splitting of `u` has its second part starting exactly
at the start of an inserted copy of `t`.  Under this condition the
replacement of any pattern by `t` can neither contain nor help recreate an
occurrence of `u`. -/
def SafePair (t u : Str) : Prop :=
  ¬ (u <:+: t) ∧
  (∀ v ∈ t.tails, v ≠ [] → ¬ v <+: u) ∧
  (∀ i, i < u.length → 0 < i → ¬ (u.drop i <+: t) ∧ ¬ (t <+: u.drop i))

instance (t u : Str) : Decidable (SafePair t u) := by
  unfold SafePair; infer_instance

/-- Conditions on the bot's username under which mention sanitisation is
idempotent: non-empty, free of the mention-syntax characters and digits, and
neither extending nor extended by the literal words `everyone` and `here`. -/
def GoodUsername (U : Str) : Prop :=
  U ≠ [] ∧
  (∀ c ∈ U, c.isDigit = false ∧ c ≠ '@' ∧ c ≠ '<' ∧ c ≠ '>' ∧ c ≠ '!') ∧
  ¬ (U <+: "everyone".toList) ∧ ¬ ("everyone".toList <+: U) ∧
  ¬ (U <+: "here".toList) ∧ ¬ ("here".toList <+: U)

/-- Conditions on the client's rendered user id: a non-empty digit string,
which is what a Discord snowflake id renders to. -/
def GoodId (D : Str) : Prop :=
  D ≠ [] ∧ ∀ c ∈ D, c.isDigit = true

instance (U : Str) : Decidable (GoodUsername U) := by
  unfold GoodUsername; infer_instance

instance (D : Str) : Decidable (GoodId D) := by
  unfold GoodId; infer_instance

/-- A message context with prefix `!`. -/
def ctxBang : MessageContext := ⟨"!".toList⟩

/-- A client with a well-behaved username. -/
def cl0 : Snake := ⟨"Bot".toList, "5".toList⟩

/-- A client whose username is the literal word `everyone`. -/
def clEveryone : Snake := ⟨"everyone".toList, "5".toList⟩

/-- A configuration with the constructor-default flag values and default
message templates of `HelpCommand.__init__`. -/
def cfg0 : HelpCommand :=
  { show_hidden := false, show_disabled := false, run_checks := false,
    show_self := false, show_params := false, show_aliases := false,
    show_prfx := false,
    embed_title := "\x7busername\x7d Help Command".toList,
    not_found_message :=
      "Sorry! No command called `\x7bcmd_name\x7d` was found.".toList,
    selfId := 0 }

/-- A plain enabled, visible command named `ping` with one alias. -/
def cmdPing : MolterCommand :=
  { oid := 1, qualified_name := "ping".toList, enabled := true, hidden := false,
    aliases := ["p".toList], params := [], brief := [], help := [],
    checks := [], scale := none }

/-- An enabled, visible command whose command check and scale check both
return `false` for every context. -/
def cmdNoPass : MolterCommand :=
  { oid := 2, qualified_name := "ping".toList, enabled := true, hidden := false,
    aliases := [], params := [], brief := [], help := [],
    checks := [fun _ => false], scale := some ⟨[fun _ => false]⟩ }

/-- An enabled command whose qualified name contains an upper-case letter. -/
def cmdUpper : MolterCommand :=
  { oid := 3, qualified_name := "Ping".toList, enabled := true, hidden := false,
    aliases := [], params := [], brief := [], help := [],
    checks := [], scale := none }

/-- An enabled hidden command that is the help command itself. -/
def cmdSelfHidden : MolterCommand :=
  { oid := 9, qualified_name := "help".toList, enabled := true, hidden := true,
    aliases := [], params := [], brief := [], help := [],
    checks := [], scale := none }

/-- The configuration under which `cmdSelfHidden` is the help command itself:
hidden commands are shown but the command does not show itself. -/
def cfgSelf : HelpCommand := { cfg0 with show_hidden := true, selfId := 9 }

/-- An enabled, visible command whose brief text is long enough to push the
list view past the 500-character threshold. -/
def cmdLong : MolterCommand :=
  { oid := 5, qualified_name := "ping".toList, enabled := true, hidden := false,
    aliases := [], params := [], brief := List.replicate 501 'a', help := [],
    checks := [], scale := none }

/-- The example configuration of the specification: `show_prefix` and
`show_aliases` true. -/
def cfgEx : HelpCommand := { cfg0 with show_prfx := true, show_aliases := true }

/-- An ordinary hidden enabled command that is not the help command. -/
def cmdHiddenOther : MolterCommand :=
  { oid := 4, qualified_name := "secret".toList, enabled := true,
    hidden := true, aliases := [], params := [], brief := [], help := [],
    checks := [], scale := none }

/-! ## Helper lemmas about the gathering fold -/

/-- Boolean identity behind the `if`/`if`/`elif` guard chain of `_gather`:
skipping on any of the three guards is the same as keeping exactly the
commands satisfying the conjunction of the three survival conditions. -/
theorem bool_filter_eq (e sd sf ss h sh : Bool)
    (ins out : List (Str × MolterCommand)) :
    (if !e && !sd then out
     else if sf && !ss then out
     else if h && !sh then out
     else ins) =
    (if (e || sd) && (!sf || ss) && (!h || sh) then ins else out) := by
  cases e <;> cases sd <;> cases sf <;> cases ss <;> cases h <;> cases sh <;> rfl

/-- One step of the `_gather` loop acts as the boolean filter `survives`:
the discarded check block does not affect the accumulator. -/
theorem gather_step_eq (cfg : HelpCommand) (ctx : Option MessageContext)
    (out : List (Str × MolterCommand)) (cmd : MolterCommand) :
    gather_step cfg ctx out cmd =
      if survives cfg cmd then insertKV cmd.qualified_name cmd out else out :=
  bool_filter_eq cmd.enabled cfg.show_disabled (cmd.oid == cfg.selfId)
    cfg.show_self cmd.hidden cfg.show_hidden
    (insertKV cmd.qualified_name cmd out) out

/-- The gathering fold equals the boolean-filter fold, for every context and
every choice of check predicates. -/
theorem gather_eq_boolean_filter (cfg : HelpCommand)
    (reg : List MolterCommand) (ctx : Option MessageContext) :
    gather cfg reg ctx = gather_spec cfg reg := by
  unfold gather gather_spec
  have hstep : gather_step cfg ctx =
      fun out cmd =>
        if survives cfg cmd then insertKV cmd.qualified_name cmd out else out := by
    funext out cmd; exact gather_step_eq cfg ctx out cmd
  rw [hstep]

/-- Inserting a fresh key appends the binding at the end. -/
theorem insertKV_append (k : Str) (v : MolterCommand) :
    ∀ m, k ∉ keysOf m → insertKV k v m = m ++ [(k, v)] := by
  intro m
  induction m with
  | nil => intro _; rfl
  | cons kv rest ih =>
      intro h
      obtain ⟨k', v'⟩ := kv
      simp only [keysOf, List.map_cons, List.mem_cons] at h
      push_neg at h
      show (if k' = k then (k, v) :: rest else (k', v') :: insertKV k v rest)
          = (k', v') :: rest ++ [(k, v)]
      rw [if_neg (fun he : k' = k => h.1 he.symm),
        ih (by simpa [keysOf] using h.2)]
      rfl

/-- When all qualified names are distinct and fresh relative to the
accumulator, the boolean-filter fold appends the filtered pair list. -/
theorem foldl_gather_append (cfg : HelpCommand) :
    ∀ (reg : List MolterCommand) (acc : List (Str × MolterCommand)),
      (∀ c ∈ reg, c.qualified_name ∉ keysOf acc) →
      (reg.map (fun c => c.qualified_name)).Nodup →
      reg.foldl
        (fun out cmd =>
          if survives cfg cmd then insertKV cmd.qualified_name cmd out else out)
        acc = acc ++ gather_pairs cfg reg := by
  intro reg
  induction reg with
  | nil => intro acc _ _; simp [gather_pairs]
  | cons c rest ih =>
      intro acc hk hnd
      simp only [List.map_cons, List.nodup_cons] at hnd
      simp only [List.foldl_cons]
      by_cases hs : survives cfg c = true
      · rw [if_pos hs,
          insertKV_append _ _ _ (hk c (List.mem_cons_self c rest))]
        rw [ih (acc ++ [(c.qualified_name, c)]) ?fresh hnd.2]
        · simp [gather_pairs, List.filter_cons, hs]
        · intro c' hc'
          intro hmem
          have hmem' : (∃ x, (c'.qualified_name, x) ∈ acc) ∨
              c'.qualified_name = c.qualified_name := by simpa [keysOf] using hmem
          rcases hmem' with ⟨x, hm⟩ | hm
          · exact hk c' (List.mem_cons_of_mem c hc')
              (List.mem_map_of_mem Prod.fst hm)
          · apply hnd.1
            rw [← hm]
            exact List.mem_map_of_mem _ hc'
      · rw [if_neg hs, ih acc (fun c' hc' => hk c' (List.mem_cons_of_mem c hc'))
          hnd.2]
        simp [gather_pairs, List.filter_cons, hs]

/-- Under distinct qualified names, `gather` is exactly the filtered pair
list. -/
theorem gather_eq_pairs (cfg : HelpCommand) (reg : List MolterCommand)
    (ctx : Option MessageContext)
    (hnd : (reg.map (fun c => c.qualified_name)).Nodup) :
    gather cfg reg ctx = gather_pairs cfg reg := by
  rw [gather_eq_boolean_filter]
  unfold gather_spec
  simpa using foldl_gather_append cfg reg [] (by simp [keysOf]) hnd

/-- Membership in an insertion comes from the new binding or the old dict. -/
theorem mem_insertKV {kv : Str × MolterCommand} {k : Str} {v : MolterCommand} :
    ∀ {m}, kv ∈ insertKV k v m → kv = (k, v) ∨ kv ∈ m := by
  intro m
  induction m with
  | nil =>
      intro h
      exact Or.inl (List.mem_singleton.1 h)
  | cons kv' rest ih =>
      obtain ⟨k', v'⟩ := kv'
      intro h
      replace h : kv ∈ (if k' = k then (k, v) :: rest
          else (k', v') :: insertKV k v rest) := h
      by_cases he : k' = k
      · rw [if_pos he] at h
        rcases List.mem_cons.1 h with h | h
        · exact Or.inl h
        · exact Or.inr (List.mem_cons_of_mem _ h)
      · rw [if_neg he] at h
        rcases List.mem_cons.1 h with h | h
        · exact Or.inr (h ▸ List.mem_cons_self _ _)
        · rcases ih h with h | h
          · exact Or.inl h
          · exact Or.inr (List.mem_cons_of_mem _ h)

/-- Every entry produced by the boolean-filter fold either came from the
accumulator or is the keyed pair of a surviving registry command. -/
theorem mem_foldl_gather (cfg : HelpCommand) :
    ∀ (reg : List MolterCommand) (acc : List (Str × MolterCommand))
      (kv : Str × MolterCommand),
      kv ∈ reg.foldl
        (fun out cmd =>
          if survives cfg cmd then insertKV cmd.qualified_name cmd out else out)
        acc →
      kv ∈ acc ∨ ∃ c ∈ reg, survives cfg c = true ∧ kv = (c.qualified_name, c) := by
  intro reg
  induction reg with
  | nil => intro acc kv h; exact Or.inl h
  | cons c rest ih =>
      intro acc kv h
      simp only [List.foldl_cons] at h
      rcases ih _ kv h with h' | ⟨c', hc', hs', hkv'⟩
      · by_cases hs : survives cfg c = true
        · rw [if_pos hs] at h'
          rcases mem_insertKV h' with h'' | h''
          · exact Or.inr ⟨c, List.mem_cons_self c rest, hs, h''⟩
          · exact Or.inl h''
        · rw [if_neg hs] at h'
          exact Or.inl h'
      · exact Or.inr ⟨c', List.mem_cons_of_mem c hc', hs', hkv'⟩

/-- Every value in `gather`'s output survives the boolean filter and is keyed
by its own qualified name. -/
theorem mem_gather_survives (cfg : HelpCommand) (reg : List MolterCommand)
    (ctx : Option MessageContext) (kv : Str × MolterCommand)
    (h : kv ∈ gather cfg reg ctx) :
    survives cfg kv.2 = true ∧ kv.1 = kv.2.qualified_name := by
  rw [gather_eq_boolean_filter] at h
  unfold gather_spec at h
  rcases mem_foldl_gather cfg reg [] kv h with h' | ⟨c, _, hs, hkv⟩
  · simp at h'
  · subst hkv
    exact ⟨hs, rfl⟩

/-- A successful lookup in a keyed pair list returns a member keyed by its
own qualified name. -/
theorem lookup_pairs_mem :
    ∀ (l : List MolterCommand) (k : Str) (c : MolterCommand),
      lookupKV (l.map (fun c => (c.qualified_name, c))) k = some c →
      c ∈ l ∧ c.qualified_name = k := by
  intro l
  induction l with
  | nil => intro k c h; exact Option.noConfusion h
  | cons c' rest ih =>
      intro k c h
      replace h : (if c'.qualified_name = k then some c'
          else lookupKV (rest.map (fun c => (c.qualified_name, c))) k) = some c := h
      by_cases he : c'.qualified_name = k
      · rw [if_pos he] at h
        have hc := Option.some.inj h
        subst hc
        exact ⟨List.mem_cons_self _ _, he⟩
      · rw [if_neg he] at h
        obtain ⟨hmem, hqn⟩ := ih k c h
        exact ⟨List.mem_cons_of_mem _ hmem, hqn⟩

/-- Under distinct qualified names, looking a member's qualified name up in
the keyed pair list returns that member. -/
theorem lookup_pairs_of_mem :
    ∀ (l : List MolterCommand) (c : MolterCommand), c ∈ l →
      (l.map (fun c => c.qualified_name)).Nodup →
      lookupKV (l.map (fun c => (c.qualified_name, c))) c.qualified_name = some c := by
  intro l
  induction l with
  | nil => intro c h; exact absurd h (List.not_mem_nil c)
  | cons c' rest ih =>
      intro c hmem hnd
      simp only [List.map_cons, List.nodup_cons] at hnd
      show (if c'.qualified_name = c.qualified_name then some c'
          else lookupKV (rest.map (fun c => (c.qualified_name, c)))
            c.qualified_name) = some c
      rcases List.mem_cons.1 hmem with he | hmem'
      · subst he
        rw [if_pos rfl]
      · by_cases heq : c'.qualified_name = c.qualified_name
        · exfalso
          apply hnd.1
          rw [heq]
          exact List.mem_map_of_mem _ hmem'
        · rw [if_neg heq]
          exact ih c hmem' hnd.2

/-! ## Claims about the gathering filter -/

/-- C1: the specification states that, with a context supplied and
`run_checks` false, a check predicate returning `false` excludes its command
from the gathered mapping.  The code does not do this: the failing input
below has a command check and a scale check that both return `false`, yet the
command is still present in `gather`'s result, because the `continue`
statements of the check loops only advance those inner loops.  This theorem
evaluates the translated code at the failing input. -/
theorem gather_keeps_command_with_failing_checks :
    cmdNoPass.checks.map (fun f => f ctxBang) = [false] ∧
    cmdNoPass.scale.map (fun sc => sc.scale_checks.map (fun f => f ctxBang)) =
      some [false] ∧
    cfg0.run_checks = false ∧
    gather cfg0 [cmdNoPass] (some ctxBang) =
      [(cmdNoPass.qualified_name, cmdNoPass)] :=
  ⟨rfl, rfl, rfl, rfl⟩

/-- C3: for every registry, configuration and context, `gather` equals the
filter of the registry by the three boolean conditions alone
(enabled-or-show_disabled, not-self-or-show_self, not-hidden-or-show_hidden):
`gather_spec` reads neither the context nor any check predicate, so the
result is independent of the boolean values the command and scale check
predicates return. -/
theorem gather_eq_three_boolean_filter (cfg : HelpCommand)
    (reg : List MolterCommand) (ctx : Option MessageContext) :
    gather cfg reg ctx = gather_spec cfg reg :=
  gather_eq_boolean_filter cfg reg ctx

/-- C8 (amended): with `show_hidden = false` no hidden command appears in
`gather`'s output; with `show_hidden = true` every hidden enabled command
appears, provided it is not the help command itself hidden behind
`show_self = false` and that registry qualified names are distinct (the
registry invariant). -/
theorem show_hidden_filtering (cfg : HelpCommand) (reg : List MolterCommand)
    (ctx : Option MessageContext) :
    (cfg.show_hidden = false → ∀ kv ∈ gather cfg reg ctx, kv.2.hidden = false) ∧
    (cfg.show_hidden = true →
      (reg.map (fun c => c.qualified_name)).Nodup →
      ∀ cmd ∈ reg, cmd.hidden = true → cmd.enabled = true →
        (cmd.oid ≠ cfg.selfId ∨ cfg.show_self = true) →
        (cmd.qualified_name, cmd) ∈ gather cfg reg ctx) := by
  constructor
  · intro hsh kv hkv
    have hs := (mem_gather_survives cfg reg ctx kv hkv).1
    unfold survives at hs
    rw [hsh] at hs
    simp only [Bool.and_eq_true, Bool.or_eq_true, Bool.not_eq_true'] at hs
    rcases hs.2 with h | h
    · exact h
    · exact absurd h (by simp)
  · intro hsh hnd cmd hmem hh he hself
    have hs : survives cfg cmd = true := by
      unfold survives
      rcases hself with h | h
      · simp [he, hsh, h]
      · simp [he, hsh, h]
    rw [gather_eq_pairs cfg reg ctx hnd]
    unfold gather_pairs
    exact List.mem_map_of_mem _ (List.mem_filter.2 ⟨hmem, hs⟩)

/-- Witness for C8: in a registry holding one hidden enabled ordinary command
and one visible command, the hidden command appears once hidden commands are
shown, and the visible command's gathered entry is not hidden when they are
not shown. -/
theorem show_hidden_filtering_witness :
    cmdPing.hidden = false ∧
    (cmdHiddenOther.qualified_name, cmdHiddenOther) ∈
      gather { cfg0 with show_hidden := true } [cmdHiddenOther] none :=
  ⟨(show_hidden_filtering cfg0 [cmdPing] none).1 rfl
      (cmdPing.qualified_name, cmdPing) (List.mem_singleton.2 rfl),
   (show_hidden_filtering { cfg0 with show_hidden := true } [cmdHiddenOther]
      none).2 rfl (by decide) cmdHiddenOther (List.mem_cons_self _ _) rfl rfl
      (Or.inl (by decide))⟩

/-- Counterexample for C8: the help command itself, hidden and enabled, does
not appear in `gather`'s output even though `show_hidden` is true, because
`show_self` is false. -/
theorem hidden_self_command_missing :
    cfgSelf.show_hidden = true ∧ cfgSelf.show_self = false ∧
    cmdSelfHidden.hidden = true ∧ cmdSelfHidden.enabled = true ∧
    cmdSelfHidden.oid = cfgSelf.selfId ∧
    gather cfgSelf [cmdSelfHidden] none = [] :=
  ⟨rfl, rfl, rfl, rfl, rfl, rfl⟩

/-- C2 (amended): for a registry with distinct qualified names and a command
whose qualified name is already fully lower-case, looking the lower-cased
qualified name up in the gathered dict succeeds with that command exactly
when the command survives the filtering. -/
theorem lookup_lower_iff_survives (cfg : HelpCommand)
    (reg : List MolterCommand) (ctx : MessageContext) (cmd : MolterCommand)
    (hmem : cmd ∈ reg)
    (hnd : (reg.map (fun c => c.qualified_name)).Nodup)
    (hlow : lowerStr cmd.qualified_name = cmd.qualified_name) :
    lookupKV (gather cfg reg (some ctx)) (lowerStr cmd.qualified_name) =
      some cmd ↔ survives cfg cmd = true := by
  rw [hlow, gather_eq_pairs cfg reg _ hnd]
  unfold gather_pairs
  constructor
  · intro h
    obtain ⟨hin, _⟩ := lookup_pairs_mem _ _ _ h
    exact (List.mem_filter.1 hin).2
  · intro hs
    exact lookup_pairs_of_mem _ cmd (List.mem_filter.2 ⟨hmem, hs⟩)
      (List.Nodup.sublist (List.Sublist.map _ (List.filter_sublist reg)) hnd)

/-- Witness for C2: a lower-case command in a singleton registry. -/
theorem lookup_lower_iff_survives_witness :
    lookupKV (gather cfg0 [cmdPing] (some ctxBang))
        (lowerStr cmdPing.qualified_name) = some cmdPing ↔
      survives cfg0 cmdPing = true :=
  lookup_lower_iff_survives cfg0 [cmdPing] ctxBang cmdPing
    (List.mem_cons_self _ _) (by decide) (by decide)

/-- Counterexample for C2: a command with an upper-case qualified name
survives the filtering (it is the sole entry of the gathered dict), yet
looking up its exact qualified name lower-cased fails, because the dict key
kept the original casing. -/
theorem upper_case_lookup_misses :
    gather cfg0 [cmdUpper] (some ctxBang) =
      [(cmdUpper.qualified_name, cmdUpper)] ∧
    lookupKV (gather cfg0 [cmdUpper] (some ctxBang))
      (lowerStr cmdUpper.qualified_name) = none :=
  ⟨rfl, rfl⟩

/-! ## Claims about the two views and the dispatcher -/

/-- C5: the list view takes the paginated path (page size 500, title with the
username token substituted) exactly when the newline-joined output exceeds
500 characters; otherwise it sends a single embed carrying the same title and
the joined lines; and an empty gather result joins to the empty string and
takes the embed path with an empty description. -/
theorem help_list_paths (cfg : HelpCommand) (cl : Snake)
    (reg : List MolterCommand) (ctx : MessageContext) :
    (500 < (joinNL (help_lines cfg cl reg ctx)).length →
      help_list cfg cl reg ctx =
        SendAction.paginator 500 (format_title cfg cl)
          (help_lines cfg cl reg ctx)) ∧
    ((help_list cfg cl reg ctx).isPaginator = true →
      500 < (joinNL (help_lines cfg cl reg ctx)).length) ∧
    ((joinNL (help_lines cfg cl reg ctx)).length ≤ 500 →
      help_list cfg cl reg ctx =
        SendAction.embedReply (format_title cfg cl)
          (joinNL (help_lines cfg cl reg ctx))) ∧
    (gather cfg reg (some ctx) = [] →
      help_list cfg cl reg ctx =
        SendAction.embedReply (format_title cfg cl) []) := by
  refine ⟨?_, ?_, ?_, ?_⟩
  · intro h
    unfold help_list
    rw [if_pos h]
  · intro h
    by_cases hc : 500 < (joinNL (help_lines cfg cl reg ctx)).length
    · exact hc
    · exfalso
      unfold help_list at h
      rw [if_neg hc] at h
      exact Bool.noConfusion h
  · intro h
    unfold help_list
    rw [if_neg (by omega)]
  · intro h
    unfold help_list help_lines
    rw [h]
    rfl

set_option maxRecDepth 8192 in
/-- Witness for C5: a 508-character single-command listing takes the
paginated path; the empty registry takes the embed path with an empty
description. -/
theorem help_list_paths_witness :
    help_list cfg0 cl0 [cmdLong] ctxBang =
      SendAction.paginator 500 (format_title cfg0 cl0)
        (help_lines cfg0 cl0 [cmdLong] ctxBang) ∧
    help_list cfg0 cl0 [] ctxBang =
      SendAction.embedReply (format_title cfg0 cl0) [] :=
  ⟨(help_list_paths cfg0 cl0 [cmdLong] ctxBang).1 (by decide),
   (help_list_paths cfg0 cl0 [] ctxBang).2.2.2 rfl⟩

/-- C6: when the lower-cased requested name is not a key of the gathered
dict, the single-command view replies with `not_found_message` with the
`{cmd_name}` token replaced by the requested name exactly as given (its
original casing preserved), as a normal reply. -/
theorem help_specific_not_found (cfg : HelpCommand) (cl : Snake)
    (reg : List MolterCommand) (ctx : MessageContext) (name : Str)
    (h : lookupKV (gather cfg reg (some ctx)) (lowerStr name) = none) :
    help_specific cfg cl reg ctx name =
      SendAction.reply (replaceAll cmd_name_token name cfg.not_found_message) := by
  unfold help_specific
  rw [h]

/-- Witness for C6: requesting the unknown mixed-case name `xyZZy` against an
empty registry replies with the default template holding `xyZZy` verbatim. -/
theorem help_specific_not_found_witness :
    help_specific cfg0 cl0 [] ctxBang "xyZZy".toList =
      SendAction.reply
        (replaceAll cmd_name_token "xyZZy".toList cfg0.not_found_message) ∧
    replaceAll cmd_name_token "xyZZy".toList cfg0.not_found_message =
      "Sorry! No command called `xyZZy` was found.".toList :=
  ⟨help_specific_not_found cfg0 cl0 [] ctxBang "xyZZy".toList rfl, by decide⟩

/-- C10: dispatching with an empty-string command name takes the list view
(the name is tested for truthiness, not only against `None`), so the result
is an embed or a paginator and the not-found reply is never sent for an
empty requested name. -/
theorem callback_empty_name_lists (cfg : HelpCommand) (cl : Snake)
    (reg : List MolterCommand) (ctx : MessageContext) :
    callback cfg cl reg ctx (some []) = help_list cfg cl reg ctx ∧
    (callback cfg cl reg ctx (some [])).isReply = false := by
  constructor
  · rfl
  · show (help_list cfg cl reg ctx).isReply = false
    have h : help_list cfg cl reg ctx =
        if 500 < (joinNL (help_lines cfg cl reg ctx)).length then
          SendAction.paginator 500 (format_title cfg cl)
            (help_lines cfg cl reg ctx)
        else
          SendAction.embedReply (format_title cfg cl)
            (joinNL (help_lines cfg cl reg ctx)) := rfl
    rw [h]
    split <;> rfl

/-- C9: the formatting operations do not mutate the command, context or
client objects they read: the state-passing translations return exactly the
objects they received, alongside the same strings the plain translations
produce. -/
theorem formatting_preserves_objects (cfg : HelpCommand) (cmd : MolterCommand)
    (ctx : MessageContext) (cl : Snake) (text : Str) :
    generate_command_string_st cfg cmd ctx =
      (generate_command_string cfg cmd ctx, cmd, ctx) ∧
    sanitise_mentions_st cl text = (sanitise_mentions cl text, cl) :=
  ⟨rfl, rfl⟩

/-! ## Claim about the command-signature string -/

/-- Unfolding of `List.intercalate` on a list of two or more pieces. -/
theorem intercalate_cons_two (s a b : Str) (r : List Str) :
    List.intercalate s (a :: b :: r) =
      a ++ (s ++ List.intercalate s (b :: r)) := by
  simp [List.intercalate, List.intersperse_cons_cons, List.append_assoc]

/-- A leading separator plus an intercalated list is the flattening of the
list with the separator prepended to every piece. -/
theorem flatten_pipe_join :
    ∀ l : List Str, l ≠ [] →
      ['|'] ++ List.intercalate ['|'] l =
        (l.map (fun a => ['|'] ++ a)).flatten := by
  intro l
  induction l with
  | nil => intro h; exact absurd rfl h
  | cons a rest ih =>
      intro _
      cases rest with
      | nil => simp [List.intercalate]
      | cons b rest' =>
          rw [intercalate_cons_two, List.map_cons, List.flatten_cons,
            ← ih (by simp)]
          simp [List.append_assoc]

/-- The alias segment of the signature string: the source's
pipe-plus-intercalate form equals the flattening of aliases each formatted
with a leading pipe. -/
theorem pipe_alias_part (aliases : List Str) (h : aliases ≠ []) :
    ['|'] ++ List.intercalate ['|'] (aliases.map (fun a => tick ++ a ++ tick)) =
      (aliases.map (fun a => ['|'] ++ (tick ++ a ++ tick))).flatten := by
  rw [flatten_pipe_join _ (by simpa using h), List.map_map]
  rfl

/-- A left fold that appends a rendering of every element equals the
accumulator followed by the flattened renderings. -/
theorem foldl_append_flatten {α : Type} (g : α → Str) :
    ∀ (l : List α) (acc : Str),
      l.foldl (fun acc p => acc ++ g p) acc = acc ++ (l.map g).flatten := by
  intro l
  induction l with
  | nil => intro acc; simp
  | cons a rest ih =>
      intro acc
      simp [List.foldl_cons, ih, List.append_assoc]

/-- The code's parameter segment equals the specification's. -/
theorem param_string_eq_spec (p : CmdParam) :
    param_string p = spec_param_string p := by
  unfold param_string spec_param_string
  cases h : p.optional <;> simp [h]

/-- Normalised form of the alias segment identity, matching simp normal
form. -/
theorem pipe_alias_norm (aliases : List Str) (h : aliases ≠ []) :
    '|' :: List.intercalate ['|'] (aliases.map (fun a => tick ++ (a ++ tick))) =
      (aliases.map (fun a => '|' :: (tick ++ (a ++ tick)))).flatten := by
  simpa [List.append_assoc] using pipe_alias_part aliases h

/-- C7: the command-signature string is built exactly as the specification
describes — qualified name in inline code with the prefix only under
`show_prefix`, aliases appended inline-code formatted and `|`-separated only
when present and `show_aliases`, parameters appended space-separated in
`[ ]`/`< >` wrappers only when present and `show_params` — and the
specification's example configuration yields the example string. -/
theorem command_string_matches_spec :
    (∀ (cfg : HelpCommand) (cmd : MolterCommand) (ctx : MessageContext),
      generate_command_string cfg cmd ctx = spec_command_string cfg cmd ctx) ∧
    generate_command_string cfgEx cmdPing ctxBang = "`!ping`|`p`".toList := by
  constructor
  · intro cfg cmd ctx
    unfold generate_command_string spec_command_string
    by_cases ha : cmd.aliases = [] <;> cases hsa : cfg.show_aliases <;>
      by_cases hp : cmd.params = [] <;> cases hsp : cfg.show_params <;>
        simp [ha, hsa, hp, hsp, List.isEmpty_iff, foldl_append_flatten,
          param_string_eq_spec, List.append_assoc] <;>
      first
        | exact pipe_alias_norm _ ha
        | rw [← List.cons_append, pipe_alias_norm _ ha]
  · decide

/-! ## Replacement theory for the mention sanitiser -/

/-- Strong induction on the length of a character list. -/
theorem str_length_ind {P : Str → Prop}
    (step : ∀ x : Str, (∀ y : Str, y.length < x.length → P y) → P x) :
    ∀ x, P x := by
  have key : ∀ (n : Nat) (x : Str), x.length ≤ n → P x := by
    intro n
    induction n with
    | zero =>
        intro x hx
        apply step
        intro y hy
        omega
    | succ n ih =>
        intro x hx
        apply step
        intro y hy
        exact ih y (by omega)
  exact fun x => key x.length x le_rfl

/-- The worker is fuel-irrelevant once the fuel covers the text length. -/
theorem repF_fuel_eq (s t : Str) :
    ∀ (f g : Nat) (x : Str), x.length ≤ f → x.length ≤ g →
      repF s t f x = repF s t g x := by
  intro f
  induction f with
  | zero =>
      intro g x hf hg
      have hx : x = [] := List.length_eq_zero.1 (Nat.le_zero.1 hf)
      subst hx
      cases g <;> rfl
  | succ f ih =>
      intro g x hf hg
      cases x with
      | nil => cases g <;> rfl
      | cons c rest =>
          cases g with
          | zero => exact absurd hg (by simp [List.length_cons])
          | succ g' =>
              show (if !s.isEmpty && s.isPrefixOf (c :: rest) then
                  t ++ repF s t f (List.drop s.length (c :: rest))
                else c :: repF s t f rest) =
                (if !s.isEmpty && s.isPrefixOf (c :: rest) then
                  t ++ repF s t g' (List.drop s.length (c :: rest))
                else c :: repF s t g' rest)
              by_cases hcond : (!s.isEmpty && s.isPrefixOf (c :: rest)) = true
              · rw [if_pos hcond, if_pos hcond]
                have hsne : s ≠ [] := by
                  rw [Bool.and_eq_true] at hcond
                  simpa using hcond.1
                have hs : 0 < s.length := List.length_pos.2 hsne
                have hlen : (List.drop s.length (c :: rest)).length ≤ f := by
                  rw [List.length_drop]
                  simp only [List.length_cons]
                  simp only [List.length_cons] at hf
                  omega
                have hlen' : (List.drop s.length (c :: rest)).length ≤ g' := by
                  rw [List.length_drop]
                  simp only [List.length_cons]
                  simp only [List.length_cons] at hg
                  omega
                rw [ih g' _ hlen hlen']
              · rw [if_neg hcond, if_neg hcond]
                simp only [List.length_cons] at hf hg
                rw [ih g' rest (by omega) (by omega)]

/-- Unfolding equation of `replaceAll` on a non-empty text. -/
theorem replaceAll_cons (s t : Str) (c : Char) (rest : Str) :
    replaceAll s t (c :: rest) =
      if !s.isEmpty && s.isPrefixOf (c :: rest) then
        t ++ replaceAll s t (List.drop s.length (c :: rest))
      else c :: replaceAll s t rest := by
  show (if !s.isEmpty && s.isPrefixOf (c :: rest) then
      t ++ repF s t rest.length (List.drop s.length (c :: rest))
    else c :: repF s t rest.length rest) = _
  by_cases hcond : (!s.isEmpty && s.isPrefixOf (c :: rest)) = true
  · rw [if_pos hcond, if_pos hcond]
    congr 1
    apply repF_fuel_eq
    · have hsne : s ≠ [] := by
        rw [Bool.and_eq_true] at hcond
        simpa using hcond.1
      have hs : 0 < s.length := List.length_pos.2 hsne
      rw [List.length_drop]
      simp only [List.length_cons]
      omega
    · exact le_rfl
  · rw [if_neg hcond, if_neg hcond]
    rfl

/-- Unfolding equation of `replaceAll` when the pattern matches at the
front. -/
theorem replaceAll_cons_pos {s : Str} (t : Str) {c : Char} {rest : Str}
    (hs : s ≠ []) (hpre : s <+: c :: rest) :
    replaceAll s t (c :: rest) =
      t ++ replaceAll s t (List.drop s.length (c :: rest)) := by
  rw [replaceAll_cons, if_pos]
  simp [ List.isPrefixOf_iff_prefix, hpre, hs]

/-- Unfolding equation of `replaceAll` when the pattern does not match at the
front. -/
theorem replaceAll_cons_neg {s : Str} (t : Str) {c : Char} {rest : Str}
    (h : ¬ (s ≠ [] ∧ s <+: c :: rest)) :
    replaceAll s t (c :: rest) = c :: replaceAll s t rest := by
  rw [replaceAll_cons, if_neg]
  intro hcond
  apply h
  rw [Bool.and_eq_true] at hcond
  refine ⟨by simpa using hcond.1, ?_⟩
  exact List.isPrefixOf_iff_prefix.1 hcond.2

/-- A text with no occurrence of the pattern is left unchanged. -/
theorem replaceAll_id_of_no_occurrence {s : Str} (t : Str) :
    ∀ x, ¬ s <:+: x → replaceAll s t x = x := by
  intro x
  induction x with
  | nil => intro _; rfl
  | cons c rest ih =>
      intro h
      rw [replaceAll_cons_neg t ?front]
      · rw [ih (fun hin => h (List.infix_cons hin))]
      · intro hcond
        exact h hcond.2.isInfix

/-- Splitting a prefix of an appended list. -/
theorem prefix_append_elim {p a b : Str} (h : p <+: a ++ b) :
    p <+: a ∨ ∃ w, p = a ++ w ∧ w <+: b := by
  induction a generalizing p with
  | nil =>
      right
      exact ⟨p, rfl, h⟩
  | cons c a' ih =>
      cases p with
      | nil => left; exact ⟨c :: a', rfl⟩
      | cons d p' =>
          rw [List.cons_append, List.cons_prefix_cons] at h
          obtain ⟨hdc, h'⟩ := h
          subst hdc
          rcases ih h' with h1 | ⟨w, hw, hwb⟩
          · left; exact List.cons_prefix_cons.2 ⟨rfl, h1⟩
          · right; exact ⟨w, by rw [hw]; rfl, hwb⟩

/-- An occurrence is a prefix of some tail. -/
theorem infix_pos {u y : Str} (h : u <:+: y) : ∃ i, u <+: List.drop i y := by
  obtain ⟨tmid, hpre, hsuf⟩ := List.infix_iff_prefix_suffix.1 h
  obtain ⟨pre, hpre'⟩ := hsuf
  exact ⟨pre.length, by rw [← hpre', List.drop_left]; exact hpre⟩

/-- A prefix of some tail is an occurrence. -/
theorem infix_of_prefix_drop {u y : Str} (i : Nat) (h : u <+: List.drop i y) :
    u <:+: y :=
  List.infix_iff_prefix_suffix.2 ⟨List.drop i y, h, List.drop_suffix i y⟩

/-- An occurrence in a cons is at the head or in the tail. -/
theorem infix_cons_elim {u : Str} {c : Char} {R : Str} (h : u <:+: c :: R) :
    u <+: c :: R ∨ u <:+: R := by
  obtain ⟨a, b, hab⟩ := h
  cases a with
  | nil => left; exact ⟨b, by simpa using hab⟩
  | cons d a' =>
      right
      simp only [List.cons_append] at hab
      injection hab with hdc htail
      exact ⟨a', b, htail⟩

/-- An occurrence in an appended list lies in the left part, in the right
part, or spans the boundary with a non-empty suffix of the left part followed
by a non-empty prefix of the right part. -/
theorem infix_append_elim {u a b : Str} (h : u <:+: a ++ b) :
    u <:+: a ∨ u <:+: b ∨
      ∃ v w, u = v ++ w ∧ v ≠ [] ∧ w ≠ [] ∧ v <:+ a ∧ w <+: b := by
  obtain ⟨i, hp⟩ := infix_pos h
  rw [List.drop_append_eq_append_drop] at hp
  by_cases hia : i < a.length
  · have hi0 : i - a.length = 0 := by omega
    rw [hi0, List.drop_zero] at hp
    rcases prefix_append_elim hp with h1 | ⟨w, hw, hwb⟩
    · left; exact infix_of_prefix_drop i h1
    · by_cases hw0 : w = []
      · subst hw0
        rw [List.append_nil] at hw
        left
        rw [hw]
        exact (List.drop_suffix i a).isInfix
      · by_cases hv0 : List.drop i a = []
        · exfalso
          have := congrArg List.length hv0
          rw [List.length_drop] at this
          simp at this
          omega
        · right; right
          exact ⟨List.drop i a, w, hw, hv0, hw0, List.drop_suffix i a, hwb⟩
  · right; left
    rw [List.drop_eq_nil_of_le (by omega), List.nil_append] at hp
    exact infix_of_prefix_drop _ hp

/-- Decomposition of a prefix of `replaceAll`'s output: it is a prefix of the
scanned text, or it splits into a prefix of the scanned text followed by a
non-empty piece aligned with the start of an inserted replacement. -/
theorem prefix_of_replaceAll (s t : Str) :
    ∀ x p : Str, p ≠ [] → p <+: replaceAll s t x →
      p <+: x ∨
        ∃ a v, p = a ++ v ∧ a <+: x ∧ v ≠ [] ∧ (v <+: t ∨ t <+: v) := by
  refine str_length_ind (fun x ih => ?_)
  intro p hp hpre
  cases x with
  | nil =>
      have hr : replaceAll s t [] = [] := rfl
      rw [hr] at hpre
      exact absurd (List.prefix_nil.1 hpre) hp
  | cons c rest =>
      by_cases hm : s ≠ [] ∧ s <+: c :: rest
      · rw [replaceAll_cons_pos t hm.1 hm.2] at hpre
        rcases prefix_append_elim hpre with h1 | ⟨w, hw, hwR⟩
        · right
          exact ⟨[], p, rfl, ⟨c :: rest, rfl⟩, hp, Or.inl h1⟩
        · right
          refine ⟨[], p, rfl, ⟨c :: rest, rfl⟩, hp, Or.inr ?_⟩
          rw [hw]
          exact List.prefix_append t w
      · rw [replaceAll_cons_neg t hm] at hpre
        cases p with
        | nil => exact absurd rfl hp
        | cons d p' =>
            rw [List.cons_prefix_cons] at hpre
            obtain ⟨hdc, hpre'⟩ := hpre
            subst hdc
            by_cases hp' : p' = []
            · subst hp'
              left
              exact List.cons_prefix_cons.2 ⟨rfl, ⟨rest, rfl⟩⟩
            · rcases ih rest (by rw [List.length_cons]; omega) p' hp' hpre' with
                h1 | ⟨a, v, hav, hax, hv, hvt⟩
              · left
                exact List.cons_prefix_cons.2 ⟨rfl, h1⟩
              · right
                exact ⟨d :: a, v, by rw [hav]; rfl,
                  List.cons_prefix_cons.2 ⟨rfl, hax⟩, hv, hvt⟩

/-- The splitting condition of `SafePair`, phrased on decompositions. -/
theorem safePair_no_split {t u : Str} (hp : SafePair t u) :
    ∀ pfx v, u = pfx ++ v → pfx ≠ [] → v ≠ [] →
      ¬ (v <+: t) ∧ ¬ (t <+: v) := by
  intro pfx v huv hp0 hv0
  have hi : v = u.drop pfx.length := by rw [huv, List.drop_left]
  have hlt : pfx.length < u.length := by
    rw [huv, List.length_append]
    have : 0 < v.length := List.length_pos.2 hv0
    omega
  have h0 : 0 < pfx.length := List.length_pos.2 hp0
  have hres := hp.2.2 pfx.length hlt h0
  rw [← hi] at hres
  exact hres

/-- The suffix condition of `SafePair`, phrased on suffixes. -/
theorem safePair_no_suffix {t u : Str} (hp : SafePair t u) :
    ∀ v, v <:+ t → v ≠ [] → ¬ v <+: u := by
  intro v hvt hv0
  exact hp.2.1 v ((List.mem_tails v t).2 hvt) hv0

/-- Replacing a pattern whose target satisfies `SafePair` leaves no
occurrence of the pattern in the output. -/
theorem not_self_infix_replaceAll {s t : Str} (hs : s ≠ []) (hp : SafePair t s) :
    ∀ x, ¬ s <:+: replaceAll s t x := by
  refine str_length_ind (fun x ih => ?_)
  intro hin
  cases x with
  | nil =>
      have hr : replaceAll s t [] = [] := rfl
      rw [hr] at hin
      exact hs (List.infix_nil.1 hin)
  | cons c rest =>
      by_cases hm : s ≠ [] ∧ s <+: c :: rest
      · rw [replaceAll_cons_pos t hm.1 hm.2] at hin
        rcases infix_append_elim hin with h1 | h1 | ⟨v, w, hvw, hv0, hw0, hvt, hwR⟩
        · exact hp.1 h1
        · refine ih _ ?_ h1
          rw [List.length_drop, List.length_cons]
          have hpos : 0 < s.length := List.length_pos.2 hs
          omega
        · exact safePair_no_suffix hp v hvt hv0
            (by rw [hvw]; exact List.prefix_append v w)
      · rw [replaceAll_cons_neg t hm] at hin
        rcases infix_cons_elim hin with h1 | h1
        · cases s with
          | nil => exact hs rfl
          | cons d s' =>
              rw [List.cons_prefix_cons] at h1
              obtain ⟨hdc, h1'⟩ := h1
              subst hdc
              by_cases hs' : s' = []
              · subst hs'
                exact hm ⟨hs, List.cons_prefix_cons.2 ⟨rfl, ⟨rest, rfl⟩⟩⟩
              · rcases prefix_of_replaceAll (d :: s') t rest s' hs' h1' with
                  h2 | ⟨a, v, hav, hax, hv0, hvt⟩
                · exact hm ⟨hs, List.cons_prefix_cons.2 ⟨rfl, h2⟩⟩
                · have hsp := safePair_no_split hp (d :: a) v
                    (by rw [hav]; rfl) (by simp) hv0
                  rcases hvt with h3 | h3
                  · exact hsp.1 h3
                  · exact hsp.2 h3
        · exact ih rest (by rw [List.length_cons]; omega) h1

/-- Replacing any pattern by a target satisfying `SafePair` for `u` cannot
create an occurrence of `u`. -/
theorem not_infix_replaceAll_of_not {s t u : Str} (hu : u ≠ [])
    (hp : SafePair t u) :
    ∀ x, ¬ u <:+: x → ¬ u <:+: replaceAll s t x := by
  refine str_length_ind (fun x ih => ?_)
  intro hux hin
  cases x with
  | nil =>
      have hr : replaceAll s t [] = [] := rfl
      rw [hr] at hin
      exact hux hin
  | cons c rest =>
      by_cases hm : s ≠ [] ∧ s <+: c :: rest
      · rw [replaceAll_cons_pos t hm.1 hm.2] at hin
        rcases infix_append_elim hin with h1 | h1 | ⟨v, w, hvw, hv0, hw0, hvt, hwR⟩
        · exact hp.1 h1
        · refine ih _ ?_ ?_ h1
          · rw [List.length_drop, List.length_cons]
            have hpos : 0 < s.length := List.length_pos.2 hm.1
            omega
          · intro hd
            exact hux (List.IsInfix.trans hd (List.drop_suffix _ _).isInfix)
        · exact safePair_no_suffix hp v hvt hv0
            (by rw [hvw]; exact List.prefix_append v w)
      · rw [replaceAll_cons_neg t hm] at hin
        rcases infix_cons_elim hin with h1 | h1
        · cases u with
          | nil => exact hu rfl
          | cons d u' =>
              rw [List.cons_prefix_cons] at h1
              obtain ⟨hdc, h1'⟩ := h1
              subst hdc
              by_cases hu' : u' = []
              · subst hu'
                exact hux ⟨[], rest, rfl⟩
              · rcases prefix_of_replaceAll s t rest u' hu' h1' with
                  h2 | ⟨a, v, hav, hax, hv0, hvt⟩
                · exact hux
                    (List.IsPrefix.isInfix (List.cons_prefix_cons.2 ⟨rfl, h2⟩))
                · have hsp := safePair_no_split hp (d :: a) v
                    (by rw [hav]; rfl) (by simp) hv0
                  rcases hvt with h3 | h3
                  · exact hsp.1 h3
                  · exact hsp.2 h3
        · exact ih rest (by rw [List.length_cons]; omega)
            (fun hd => hux (List.infix_cons hd)) h1

/-- Two cons lists with different heads are not prefix-related. -/
theorem not_prefix_cons_of_ne {a b : Char} (h : a ≠ b) (l₁ l₂ : Str) :
    ¬ (a :: l₁ <+: b :: l₂) :=
  fun hp => h (List.cons_prefix_cons.1 hp).1

/-- A proper tail of a list starts with one of the list's elements. -/
theorem drop_head_mem {w : Str} {j : Nat} (hj : j < w.length) :
    ∃ v0 v', w.drop j = v0 :: v' ∧ v0 ∈ w := by
  cases hvv : w.drop j with
  | nil =>
      exfalso
      have hlen := congrArg List.length hvv
      rw [List.length_drop] at hlen
      simp at hlen
      omega
  | cons a l =>
      refine ⟨a, l, rfl, ?_⟩
      have ha : a ∈ w.drop j := by rw [hvv]; exact List.mem_cons_self _ _
      exact (List.drop_suffix j w).subset ha

/-- Safety of the substituted-username target against a pattern of the shape
`'@' :: w` where `w` avoids `'@'` and is prefix-incomparable with the
username. -/
theorem safePair_word (U w : Str) (_hU0 : U ≠ []) (hAt : '@' ∉ U)
    (_hw0 : w ≠ []) (hwAt : '@' ∉ w) (h1 : ¬ U <+: w) (h2 : ¬ w <+: U) :
    SafePair ('@' :: U) ('@' :: w) := by
  refine ⟨?_, ?_, ?_⟩
  · rintro ⟨a, b, hab⟩
    cases a with
    | nil =>
        simp only [List.nil_append, List.cons_append] at hab
        injection hab with hh ht
        exact h2 ⟨b, ht⟩
    | cons a0 a' =>
        simp only [List.cons_append] at hab
        injection hab with hh ht
        apply hAt
        rw [← ht]
        simp
  · intro v hv hvne hpre
    rw [List.mem_tails] at hv
    rcases List.suffix_cons_iff.1 hv with hv1 | hv2
    · rw [hv1] at hpre
      exact h1 (List.cons_prefix_cons.1 hpre).2
    · cases v with
      | nil => exact hvne rfl
      | cons v0 v' =>
          have hv0 : v0 ∈ U := hv2.subset (List.mem_cons_self _ _)
          have he := (List.cons_prefix_cons.1 hpre).1
          exact hAt (he ▸ hv0)
  · intro i hi h0
    have hdrop : ('@' :: w).drop i = w.drop (i - 1) := by
      cases i with
      | zero => exact absurd h0 (by omega)
      | succ j => simp
    rw [hdrop]
    have hj : i - 1 < w.length := by
      rw [List.length_cons] at hi
      omega
    obtain ⟨v0, v', hv', hv0⟩ := drop_head_mem hj
    rw [hv']
    have hne : v0 ≠ '@' := fun he => hwAt (he ▸ hv0)
    exact ⟨not_prefix_cons_of_ne hne _ _,
      not_prefix_cons_of_ne (fun he => hne he.symm) _ _⟩

/-- Safety of the substituted-username target against `"@everyone"`. -/
theorem safePair_tgt_everyone (U : Str) (hU : GoodUsername U) :
    SafePair ('@' :: U) everyone_src := by
  have he : everyone_src = '@' :: "everyone".toList := rfl
  rw [he]
  exact safePair_word U "everyone".toList hU.1
    (fun h => (hU.2.1 '@' h).2.1 rfl) (by decide) (by decide)
    hU.2.2.1 hU.2.2.2.1

/-- Safety of the substituted-username target against `"@here"`. -/
theorem safePair_tgt_here (U : Str) (hU : GoodUsername U) :
    SafePair ('@' :: U) here_src := by
  have he : here_src = '@' :: "here".toList := rfl
  rw [he]
  exact safePair_word U "here".toList hU.1
    (fun h => (hU.2.1 '@' h).2.1 rfl) (by decide) (by decide)
    hU.2.2.2.2.1 hU.2.2.2.2.2

/-- Safety of the substituted-username target against the direct-mention
pattern `<@id>`. -/
theorem safePair_tgt_mention (U D : Str) (hU : GoodUsername U)
    (hD : GoodId D) :
    SafePair ('@' :: U) ('<' :: '@' :: (D ++ ['>'])) := by
  obtain ⟨hU0, hchar, _, _, _, _⟩ := hU
  obtain ⟨hD0, hdig⟩ := hD
  have hAt : '@' ∉ U := fun h => (hchar _ h).2.1 rfl
  have hLt : '<' ∉ U := fun h => (hchar _ h).2.2.1 rfl
  have hGt : '>' ∉ U := fun h => (hchar _ h).2.2.2.1 rfl
  have hUdig : ∀ c ∈ U, c.isDigit = false := fun c h => (hchar _ h).1
  refine ⟨?_, ?_, ?_⟩
  · intro hin
    have hmem : '<' ∈ '@' :: U := hin.subset (List.mem_cons_self _ _)
    rcases List.mem_cons.1 hmem with h | h
    · exact absurd h (by decide)
    · exact hLt h
  · intro v hv hvne hpre
    rw [List.mem_tails] at hv
    rcases List.suffix_cons_iff.1 hv with hv1 | hv2
    · rw [hv1] at hpre
      exact absurd (List.cons_prefix_cons.1 hpre).1 (by decide)
    · cases v with
      | nil => exact hvne rfl
      | cons v0 v' =>
          have hv0 : v0 ∈ U := hv2.subset (List.mem_cons_self _ _)
          have he := (List.cons_prefix_cons.1 hpre).1
          exact hLt (he ▸ hv0)
  · intro i hi h0
    cases i with
    | zero => exact absurd h0 (by omega)
    | succ j =>
        cases j with
        | zero =>
            constructor
            · intro hpre
              have h2 := (List.cons_prefix_cons.1 hpre).2
              exact hGt (h2.subset (by simp))
            · intro hpre
              have h2 := (List.cons_prefix_cons.1 hpre).2
              obtain ⟨u0, U', hU'⟩ : ∃ u0 U', U = u0 :: U' := by
                cases U with
                | nil => exact absurd rfl hU0
                | cons a l => exact ⟨a, l, rfl⟩
              have hu0 : u0 ∈ D ++ ['>'] :=
                h2.subset (by rw [hU']; exact List.mem_cons_self _ _)
              have hu0U : u0 ∈ U := by rw [hU']; exact List.mem_cons_self _ _
              rcases List.mem_append.1 hu0 with h | h
              · have hd := hdig u0 h
                have hnd := hUdig u0 hu0U
                rw [hd] at hnd
                exact Bool.noConfusion hnd
              · rw [List.mem_singleton] at h
                apply hGt
                rw [← h]
                exact hu0U
        | succ k =>
            have hdrop :
                (('<' :: '@' :: (D ++ ['>'])).drop (k + 2)) =
                  (D ++ ['>']).drop k := rfl
            rw [hdrop]
            have hk : k < (D ++ ['>']).length := by
              rw [List.length_cons, List.length_cons] at hi
              omega
            obtain ⟨v0, v', hv', hv0⟩ := drop_head_mem hk
            rw [hv']
            have hne : v0 ≠ '@' := by
              rcases List.mem_append.1 hv0 with h | h
              · intro he
                have hd := hdig v0 h
                rw [he] at hd
                exact absurd hd (by decide)
              · rw [List.mem_singleton] at h
                rw [h]
                decide
            exact ⟨not_prefix_cons_of_ne hne _ _,
              not_prefix_cons_of_ne (fun he => hne he.symm) _ _⟩

/-- Safety of the substituted-username target against the nickname-mention
pattern `<@!id>`. -/
theorem safePair_tgt_mention_bang (U D : Str) (hU : GoodUsername U)
    (hD : GoodId D) :
    SafePair ('@' :: U) ('<' :: '@' :: '!' :: (D ++ ['>'])) := by
  obtain ⟨hU0, hchar, _, _, _, _⟩ := hU
  obtain ⟨hD0, hdig⟩ := hD
  have hAt : '@' ∉ U := fun h => (hchar _ h).2.1 rfl
  have hLt : '<' ∉ U := fun h => (hchar _ h).2.2.1 rfl
  have hGt : '>' ∉ U := fun h => (hchar _ h).2.2.2.1 rfl
  have hBang : '!' ∉ U := fun h => (hchar _ h).2.2.2.2 rfl
  have hUdig : ∀ c ∈ U, c.isDigit = false := fun c h => (hchar _ h).1
  refine ⟨?_, ?_, ?_⟩
  · intro hin
    have hmem : '<' ∈ '@' :: U := hin.subset (List.mem_cons_self _ _)
    rcases List.mem_cons.1 hmem with h | h
    · exact absurd h (by decide)
    · exact hLt h
  · intro v hv hvne hpre
    rw [List.mem_tails] at hv
    rcases List.suffix_cons_iff.1 hv with hv1 | hv2
    · rw [hv1] at hpre
      exact absurd (List.cons_prefix_cons.1 hpre).1 (by decide)
    · cases v with
      | nil => exact hvne rfl
      | cons v0 v' =>
          have hv0 : v0 ∈ U := hv2.subset (List.mem_cons_self _ _)
          have he := (List.cons_prefix_cons.1 hpre).1
          exact hLt (he ▸ hv0)
  · intro i hi h0
    cases i with
    | zero => exact absurd h0 (by omega)
    | succ j =>
        cases j with
        | zero =>
            constructor
            · intro hpre
              have h2 := (List.cons_prefix_cons.1 hpre).2
              exact hBang (h2.subset (List.mem_cons_self _ _))
            · intro hpre
              have h2 := (List.cons_prefix_cons.1 hpre).2
              obtain ⟨u0, U', hU'⟩ : ∃ u0 U', U = u0 :: U' := by
                cases U with
                | nil => exact absurd rfl hU0
                | cons a l => exact ⟨a, l, rfl⟩
              have hu0U : u0 ∈ U := by rw [hU']; exact List.mem_cons_self _ _
              have hu0 : u0 ∈ '!' :: (D ++ ['>']) :=
                h2.subset (by rw [hU']; exact List.mem_cons_self _ _)
              rcases List.mem_cons.1 hu0 with h | h
              · apply hBang
                rw [← h]
                exact hu0U
              · rcases List.mem_append.1 h with h' | h'
                · have hd := hdig u0 h'
                  have hnd := hUdig u0 hu0U
                  rw [hd] at hnd
                  exact Bool.noConfusion hnd
                · rw [List.mem_singleton] at h'
                  apply hGt
                  rw [← h']
                  exact hu0U
        | succ k =>
            cases k with
            | zero =>
                constructor
                · exact not_prefix_cons_of_ne (by decide) _ _
                · exact not_prefix_cons_of_ne (by decide) _ _
            | succ m =>
                have hdrop :
                    (('<' :: '@' :: '!' :: (D ++ ['>'])).drop (m + 3)) =
                      (D ++ ['>']).drop m := rfl
                rw [hdrop]
                have hm : m < (D ++ ['>']).length := by
                  rw [List.length_cons, List.length_cons, List.length_cons] at hi
                  omega
                obtain ⟨v0, v', hv', hv0⟩ := drop_head_mem hm
                rw [hv']
                have hne : v0 ≠ '@' := by
                  rcases List.mem_append.1 hv0 with h | h
                  · intro he
                    have hd := hdig v0 h
                    rw [he] at hd
                    exact absurd hd (by decide)
                  · rw [List.mem_singleton] at h
                    rw [h]
                    decide
                exact ⟨not_prefix_cons_of_ne hne _ _,
                  not_prefix_cons_of_ne (fun he => hne he.symm) _ _⟩

/-- Unfolded form of the direct-mention source string. -/
theorem mention_src_eq (cl : Snake) :
    mention_src cl = '<' :: '@' :: (cl.idStr ++ ['>']) := rfl

/-- Unfolded form of the nickname-mention source string. -/
theorem mention_bang_src_eq (cl : Snake) :
    mention_bang_src cl = '<' :: '@' :: '!' :: (cl.idStr ++ ['>']) := rfl

/-- Unfolded form of the mention replacement target. -/
theorem mention_tgt_eq (cl : Snake) : mention_tgt cl = '@' :: cl.username := rfl

/-- The first substitution's target is safe for its own pattern. -/
theorem safePair_everyone_self : SafePair everyone_tgt everyone_src := by decide

/-- The second substitution's target is safe for its own pattern. -/
theorem safePair_here_self : SafePair here_tgt here_src := by decide

/-- The second substitution's target cannot recreate the first pattern. -/
theorem safePair_here_everyone : SafePair here_tgt everyone_src := by decide

/-- After one pass of the sanitiser with a well-behaved username and a digit
user id, none of the four source tokens occurs in the output. -/
theorem sanitise_no_tokens (cl : Snake) (hU : GoodUsername cl.username)
    (hD : GoodId cl.idStr) (x : Str) :
    ¬ everyone_src <:+: sanitise_mentions cl x ∧
    ¬ here_src <:+: sanitise_mentions cl x ∧
    ¬ mention_src cl <:+: sanitise_mentions cl x ∧
    ¬ mention_bang_src cl <:+: sanitise_mentions cl x := by
  have hne1 : everyone_src ≠ [] := by decide
  have hne2 : here_src ≠ [] := by decide
  have hne3 : mention_src cl ≠ [] := by
    rw [mention_src_eq]; exact List.cons_ne_nil _ _
  have hne4 : mention_bang_src cl ≠ [] := by
    rw [mention_bang_src_eq]; exact List.cons_ne_nil _ _
  have hspE : SafePair (mention_tgt cl) everyone_src := by
    rw [mention_tgt_eq]; exact safePair_tgt_everyone cl.username hU
  have hspH : SafePair (mention_tgt cl) here_src := by
    rw [mention_tgt_eq]; exact safePair_tgt_here cl.username hU
  have hspM : SafePair (mention_tgt cl) (mention_src cl) := by
    rw [mention_tgt_eq, mention_src_eq]
    exact safePair_tgt_mention cl.username cl.idStr hU hD
  have hspB : SafePair (mention_tgt cl) (mention_bang_src cl) := by
    rw [mention_tgt_eq, mention_bang_src_eq]
    exact safePair_tgt_mention_bang cl.username cl.idStr hU hD
  have hA1 : ¬ everyone_src <:+: replaceAll everyone_src everyone_tgt x :=
    not_self_infix_replaceAll hne1 safePair_everyone_self x
  have hA2 : ¬ everyone_src <:+:
      replaceAll here_src here_tgt (replaceAll everyone_src everyone_tgt x) :=
    not_infix_replaceAll_of_not hne1 safePair_here_everyone _ hA1
  have hA3 : ¬ everyone_src <:+:
      replaceAll (mention_src cl) (mention_tgt cl)
        (replaceAll here_src here_tgt (replaceAll everyone_src everyone_tgt x)) :=
    not_infix_replaceAll_of_not hne1 hspE _ hA2
  have hA4 : ¬ everyone_src <:+: sanitise_mentions cl x :=
    not_infix_replaceAll_of_not hne1 hspE _ hA3
  have hB2 : ¬ here_src <:+:
      replaceAll here_src here_tgt (replaceAll everyone_src everyone_tgt x) :=
    not_self_infix_replaceAll hne2 safePair_here_self _
  have hB3 : ¬ here_src <:+:
      replaceAll (mention_src cl) (mention_tgt cl)
        (replaceAll here_src here_tgt (replaceAll everyone_src everyone_tgt x)) :=
    not_infix_replaceAll_of_not hne2 hspH _ hB2
  have hB4 : ¬ here_src <:+: sanitise_mentions cl x :=
    not_infix_replaceAll_of_not hne2 hspH _ hB3
  have hC3 : ¬ mention_src cl <:+:
      replaceAll (mention_src cl) (mention_tgt cl)
        (replaceAll here_src here_tgt (replaceAll everyone_src everyone_tgt x)) :=
    not_self_infix_replaceAll hne3 hspM _
  have hC4 : ¬ mention_src cl <:+: sanitise_mentions cl x :=
    not_infix_replaceAll_of_not hne3 hspM _ hC3
  have hD4 : ¬ mention_bang_src cl <:+: sanitise_mentions cl x :=
    not_self_infix_replaceAll hne4 hspB _
  exact ⟨hA4, hB4, hC4, hD4⟩

/-- C4 (amended): mention sanitisation is idempotent for every input text
provided the bot username is non-empty, contains no mention-syntax character
(`@`, `<`, `>`, `!`) and no digit, and neither extends nor is extended by the
literal words `everyone` and `here`, and the rendered user id is a non-empty
digit string.  Without these conditions the substitutions can manufacture new
mention tokens, as the counterexample shows. -/
theorem sanitise_mentions_idem (cl : Snake) (x : Str)
    (hU : GoodUsername cl.username) (hD : GoodId cl.idStr) :
    sanitise_mentions cl (sanitise_mentions cl x) = sanitise_mentions cl x := by
  obtain ⟨hA, hB, hC, hD4⟩ := sanitise_no_tokens cl hU hD x
  show replaceAll (mention_bang_src cl) (mention_tgt cl)
      (replaceAll (mention_src cl) (mention_tgt cl)
        (replaceAll here_src here_tgt
          (replaceAll everyone_src everyone_tgt (sanitise_mentions cl x)))) =
    sanitise_mentions cl x
  rw [replaceAll_id_of_no_occurrence everyone_tgt _ hA,
    replaceAll_id_of_no_occurrence here_tgt _ hB,
    replaceAll_id_of_no_occurrence (mention_tgt cl) _ hC,
    replaceAll_id_of_no_occurrence (mention_tgt cl) _ hD4]

/-- Witness for C4: a well-behaved client sanitising a text with mentions. -/
theorem sanitise_mentions_idem_witness :
    GoodUsername cl0.username ∧ GoodId cl0.idStr ∧
    sanitise_mentions cl0
        (sanitise_mentions cl0 "hi @everyone <@5> bye".toList) =
      sanitise_mentions cl0 "hi @everyone <@5> bye".toList :=
  ⟨by decide, by decide,
   sanitise_mentions_idem cl0 "hi @everyone <@5> bye".toList
     (by decide) (by decide)⟩

/-- Counterexample for C4: with the bot username `everyone`, sanitising
`<@5>` once yields `@everyone`, and sanitising it again changes the text
once more, so sanitisation is not idempotent for every username. -/
theorem sanitise_mentions_not_idempotent :
    sanitise_mentions clEveryone
        (sanitise_mentions clEveryone "<@5>".toList) ≠
      sanitise_mentions clEveryone "<@5>".toList := by decide
